import Mathlib

/-
Shallow embedding of the trust-establishment subsystem of the Go
tls-playground repository: the known-clients registry parser
(loadKnownClients), the SHA-256 fingerprint rendering and the custom peer
verifier (verifyClientCertificate), and the connecting-role policy builder
(createClientTLSConfig / loadCertPool).

Go strings are modelled as lists of characters, Go byte slices as lists of
naturals (each < 256 where it matters), the Go string map as an association
list with overwrite-on-insert, and file / external-library effects
(os.Open, bufio scanning, x509.ParseCertificate, sha256.Sum256,
pem.Decode) as explicit inputs or function parameters.
-/

namespace TLSPlayground

/-- Go strings modelled as lists of characters. -/
abbrev GoStr := List Char

/-- Go byte slices modelled as lists of naturals. -/
abbrev Bytes := List Nat

/-- Models Go unicode.IsSpace on the characters it recognises as white
space: space, tab, newline, vertical tab, form feed, carriage return,
NEL (U+0085) and NBSP (U+00A0). -/
def isSpaceGo (c : Char) : Bool :=
  c == ' ' || c == '\t' || c == '\n' || c == Char.ofNat 11 ||
  c == Char.ofNat 12 || c == '\r' || c == Char.ofNat 133 || c == Char.ofNat 160

/-- Models Go strings.TrimSpace: drop white space from both ends. -/
def trimSpace (l : GoStr) : GoStr :=
  ((l.dropWhile isSpaceGo).reverse.dropWhile isSpaceGo).reverse

/-- Models Go strings.HasPrefix for a one-character pattern, the only use
in the source (the comment marker of the registry format). -/
def startsWithChar (c : Char) : GoStr → Bool
  | [] => false
  | x :: _ => x == c

/-- Models Go strings.SplitN(line, " ", 2): split at the first space
character, none when the line holds no space (the length-1 result in Go). -/
def splitAtFirstSpace : GoStr → Option (GoStr × GoStr)
  | [] => none
  | c :: rest =>
    if c = ' ' then some ([], rest)
    else
      match splitAtFirstSpace rest with
      | none => none
      | some (a, b) => some (c :: a, b)

/-- Models Go strings.ToUpper on the ASCII range, the range the registry
fingerprints live in (hex digits and colons). -/
def toUpperChar (c : Char) : Char :=
  if 'a' ≤ c ∧ c ≤ 'z' then Char.ofNat (c.toNat - 32) else c

/-- Uppercasing of a whole Go string, ASCII range. -/
def toUpperStr (l : GoStr) : GoStr := l.map toUpperChar

/-- The Go map[string]string of known clients, modelled as an association
list with overwrite-on-insert (Go map assignment semantics). -/
abbrev Registry := List (GoStr × GoStr)

/-- Go map assignment clients[cn] = fp: overwrite the binding when the key
is present, append it otherwise. -/
def mapInsert : Registry → GoStr → GoStr → Registry
  | [], k, v => [(k, v)]
  | (k', v') :: rest, k, v =>
    if k' = k then (k, v) :: rest else (k', v') :: mapInsert rest k v

/-- Go map lookup knownClients[cn]. -/
def mapLookup : Registry → GoStr → Option GoStr
  | [], _ => none
  | (k', v') :: rest, k => if k' = k then some v' else mapLookup rest k

/-- One iteration of the scanner loop of loadKnownClients: trim the line,
skip empties and #-comments, split at the first space (Go
strings.SplitN(line, " ", 2) and the len(parts) != 2 check), trim both
parts, uppercase the fingerprint, skip when either part is empty, else
store with map-assignment semantics. -/
def knownClientsStep (clients : Registry) (rawLine : GoStr) : Registry :=
  let line := trimSpace rawLine
  if line.isEmpty || startsWithChar '#' line then clients
  else
    match splitAtFirstSpace line with
    | none => clients
    | some (p0, p1) =>
      let cn := trimSpace p0
      let fp := toUpperStr (trimSpace p1)
      if cn.isEmpty || fp.isEmpty then clients
      else mapInsert clients cn fp

/-- The scanner loop of loadKnownClients over the whole list of lines. -/
def parseKnownClients (lines : List GoStr) : Registry :=
  lines.foldl knownClientsStep []

/-- loadKnownClients with the file system abstracted to its read outcome:
an open or scanner error propagates wrapped, a readable source is parsed
line by line and always yields a registry. -/
def loadKnownClients (source : Except GoStr (List GoStr)) :
    Except GoStr Registry :=
  match source with
  | .error e => .error (("failed to open or read known clients file: ").toList ++ e)
  | .ok lines => .ok (parseKnownClients lines)

/-- One hexadecimal digit, uppercase, as produced by Go fmt %X. -/
def hexDigitUpper (n : Nat) : Char :=
  if n < 10 then Char.ofNat (48 + n) else Char.ofNat (55 + n)

/-- Go fmt.Fprintf(&buf, "%02X", b) for a byte b: two uppercase hex
digits. -/
def byteToHexUpper (b : Nat) : GoStr :=
  [hexDigitUpper (b / 16), hexDigitUpper (b % 16)]

/-- The fingerprint-rendering loop of verifyClientCertificate: each byte
as two uppercase hex digits, a colon after every byte but the last. -/
def renderFingerprint : Bytes → GoStr
  | [] => []
  | [b] => byteToHexUpper b
  | b :: rest => byteToHexUpper b ++ ':' :: renderFingerprint rest

/-- An x509 certificate as the verifier uses it: the parsed subject common
name and the raw DER bytes (cert.Raw). -/
structure Certificate where
  subjectCN : GoStr
  raw : Bytes
  deriving DecidableEq, Repr

/-- The distinct error outcomes of verifyClientCertificate, one
constructor per return site of the Go function. -/
inductive VerifyError where
  | noClientCertificate : VerifyError
  | parseFailure : VerifyError
  | notAuthorized (cn : GoStr) : VerifyError
  | fingerprintMismatch (cn : GoStr) : VerifyError
  deriving DecidableEq, Repr

/-- verifyClientCertificate with the external x509 parser and sha256
digest passed as parameters; none is the nil (success) return. The
fingerprint is rendered from the digest of cert.Raw, the common name
looked up in the known-clients map, and a stored fingerprint differing
from the computed one is a mismatch. -/
def verifyClientCertificate (parseCertificate : Bytes → Option Certificate)
    (sha256Sum : Bytes → Bytes)
    (rawCerts : List Bytes) (knownClients : Registry) : Option VerifyError :=
  match rawCerts with
  | [] => some .noClientCertificate
  | raw :: _ =>
    match parseCertificate raw with
    | none => some .parseFailure
    | some cert =>
      let fingerprint := renderFingerprint (sha256Sum cert.raw)
      let cn := cert.subjectCN
      match mapLookup knownClients cn with
      | none => some (.notAuthorized cn)
      | some knownFingerprint =>
        if knownFingerprint ≠ fingerprint then some (.fingerprintMismatch cn)
        else none

/-- One PEM block of a certificate file: a block that decodes to a
certificate, or any other block (wrong type, headers, or unparseable). -/
inductive PemBlock where
  | cert (c : Certificate) : PemBlock
  | other : PemBlock
  deriving DecidableEq, Repr

/-- CertPool.addCert: the pool deduplicates, a certificate already present
is not added again. -/
def insertCert (pool : List Certificate) (c : Certificate) : List Certificate :=
  if c ∈ pool then pool else pool ++ [c]

/-- Models Go x509.CertPool.AppendCertsFromPEM: walk every PEM block of
the file, add every block that decodes to a certificate, skip the rest;
the boolean reports whether at least one certificate was added. -/
def appendCertsFromPEM (pool : List Certificate) (blocks : List PemBlock) :
    List Certificate × Bool :=
  match blocks with
  | [] => (pool, false)
  | PemBlock.cert c :: rest => ((appendCertsFromPEM (insertCert pool c) rest).1, true)
  | PemBlock.other :: rest => appendCertsFromPEM pool rest

/-- loadCertPool with the file read abstracted to its outcome: an
unreadable file is an error, otherwise a fresh pool is filled from the PEM
blocks and an empty fill (no certificate block) is an error. -/
def loadCertPool (certFilePEM : Option (List PemBlock)) :
    Except GoStr (List Certificate) :=
  match certFilePEM with
  | none => .error ("failed to read certificate PEM").toList
  | some blocks =>
    let r := appendCertsFromPEM [] blocks
    if r.2 then .ok r.1
    else .error ("failed to append certificate to pool").toList

/-- The client key pair loaded by tls.LoadX509KeyPair, opaque to the
claims. -/
structure KeyPair where
  certRaw : Bytes
  deriving DecidableEq, Repr

/-- The fields of the tls.Config built by createClientTLSConfig that the
claims are about. -/
structure ClientTLSConfig where
  certificates : List KeyPair
  rootCAs : List Certificate
  minVersion : Nat
  deriving DecidableEq, Repr

/-- createClientTLSConfig with the two file loads abstracted to their
outcomes: a failed key-pair load or a failed cert-pool load is an error,
otherwise the config carries the key pair, the loaded pool as RootCAs, and
the TLS 1.2 floor (0x0303). -/
def createClientTLSConfig (clientKeyPair : Option KeyPair)
    (serverCertPEM : Option (List PemBlock)) : Except GoStr ClientTLSConfig :=
  match clientKeyPair with
  | none => .error ("failed to load client key pair").toList
  | some kp =>
    match loadCertPool serverCertPEM with
    | .error e =>
      .error (("failed to load server certificate for client trust: ").toList ++ e)
    | .ok pool => .ok { certificates := [kp], rootCAs := pool, minVersion := 771 }

/-- The certificates among a file's PEM blocks, in file order. -/
def pemCertList (blocks : List PemBlock) : List Certificate :=
  blocks.filterMap fun b =>
    match b with
    | PemBlock.cert c => some c
    | PemBlock.other => none

/-- A character that may appear in a fingerprint group: an uppercase
hexadecimal digit. -/
def isUpperHexDigit (c : Char) : Bool :=
  ('0' ≤ c && c ≤ '9') || ('A' ≤ c && c ≤ 'F')

/-- Split a string on colons, keeping empty groups, so a leading or
trailing colon shows up as an empty group. -/
def splitOnColon : GoStr → List GoStr
  | [] => [[]]
  | c :: rest =>
    match splitOnColon rest with
    | [] => [[]]
    | g :: gs => if c = ':' then [] :: g :: gs else (c :: g) :: gs

/-- The canonical fingerprint pattern of the spec: colon-separated groups,
each exactly two uppercase hex digits; an empty group (empty string,
leading, trailing or doubled colon) fails the pattern. -/
def isCanonicalFingerprint (s : GoStr) : Bool :=
  (splitOnColon s).all fun g => g.length == 2 && g.all isUpperHexDigit

/-- The keys of a registry, in order. -/
def regKeys (m : Registry) : List GoStr := m.map Prod.fst

theorem dropWhileSpace_cons (c : Char) (l : GoStr) (h : isSpaceGo c = false) :
    (c :: l).dropWhile isSpaceGo = c :: l := by
  simp [List.dropWhile, h]

theorem dropWhileSpace_all (l : GoStr) (h : ∀ c ∈ l, isSpaceGo c = false) :
    l.dropWhile isSpaceGo = l := by
  cases l with
  | nil => rfl
  | cons c t => exact dropWhileSpace_cons c t (h c (by simp))

theorem trimSpace_all (l : GoStr) (h : ∀ c ∈ l, isSpaceGo c = false) :
    trimSpace l = l := by
  unfold trimSpace
  rw [dropWhileSpace_all l h,
    dropWhileSpace_all _ (fun c hc => h c (List.mem_reverse.mp hc)),
    List.reverse_reverse]

theorem trimSpace_line (n0 : Char) (nt ft : GoStr) (f0 : Char)
    (h0 : isSpaceGo n0 = false) (hf : isSpaceGo f0 = false) :
    trimSpace ((n0 :: nt) ++ ' ' :: (ft ++ [f0])) = (n0 :: nt) ++ ' ' :: (ft ++ [f0]) := by
  unfold trimSpace
  have h1 : ((n0 :: nt) ++ ' ' :: (ft ++ [f0])).dropWhile isSpaceGo
      = (n0 :: nt) ++ ' ' :: (ft ++ [f0]) := dropWhileSpace_cons n0 _ h0
  have h2 : ((n0 :: nt) ++ ' ' :: (ft ++ [f0])).reverse
      = f0 :: (ft.reverse ++ ' ' :: (nt.reverse ++ [n0])) := by simp
  rw [h1, h2, dropWhileSpace_cons _ _ hf, ← h2, List.reverse_reverse]

theorem splitAtFirstSpace_append (name fp : GoStr) (h : ∀ c ∈ name, c ≠ ' ') :
    splitAtFirstSpace (name ++ ' ' :: fp) = some (name, fp) := by
  induction name with
  | nil => simp [splitAtFirstSpace]
  | cons c t ih =>
    have hc : c ≠ ' ' := h c (by simp)
    have iht := ih (fun x hx => h x (by simp [hx]))
    simp [splitAtFirstSpace, hc, iht]

theorem knownClientsStep_accept (clients : Registry) (name fp : GoStr)
    (hn : name ≠ []) (hfp : fp ≠ [])
    (hnw : ∀ c ∈ name, isSpaceGo c = false)
    (hfw : ∀ c ∈ fp, isSpaceGo c = false)
    (hh : startsWithChar '#' name = false) :
    knownClientsStep clients (name ++ ' ' :: fp) = mapInsert clients name (toUpperStr fp) := by
  obtain ⟨n0, nt, rfl⟩ : ∃ n0 nt, name = n0 :: nt := by
    cases name with
    | nil => exact absurd rfl hn
    | cons a b => exact ⟨a, b, rfl⟩
  obtain ⟨ft, f0, rfl⟩ : ∃ ft f0, fp = ft ++ [f0] := by
    rcases List.eq_nil_or_concat fp with h | ⟨L, b, rfl⟩
    · exact absurd h hfp
    · exact ⟨L, b, List.concat_eq_append L b⟩
  have h0 : isSpaceGo n0 = false := hnw n0 (by simp)
  have hf0 : isSpaceGo f0 = false := hfw f0 (by simp)
  have htrim := trimSpace_line n0 nt ft f0 h0 hf0
  have hsplit : splitAtFirstSpace ((n0 :: nt) ++ ' ' :: (ft ++ [f0]))
      = some (n0 :: nt, ft ++ [f0]) := by
    apply splitAtFirstSpace_append
    intro c hc he
    subst he
    exact absurd (hnw ' ' hc) (by decide)
  have hh' : (n0 == '#') = false := by simpa [startsWithChar] using hh
  have hcn : trimSpace (n0 :: nt) = n0 :: nt := trimSpace_all _ hnw
  have hfpt : trimSpace (ft ++ [f0]) = ft ++ [f0] := trimSpace_all _ hfw
  have htrim' : trimSpace (n0 :: (nt ++ ' ' :: (ft ++ [f0])))
      = n0 :: (nt ++ ' ' :: (ft ++ [f0])) := by simpa using htrim
  have hsplit' : splitAtFirstSpace (n0 :: (nt ++ ' ' :: (ft ++ [f0])))
      = some (n0 :: nt, ft ++ [f0]) := by simpa using hsplit
  simp [knownClientsStep, htrim', hsplit', hh', hcn, hfpt, startsWithChar, toUpperStr]

theorem knownClientsStep_skip_nospace (clients : Registry) (line : GoStr)
    (h : splitAtFirstSpace (trimSpace line) = none) :
    knownClientsStep clients line = clients := by
  simp [knownClientsStep, h]

theorem knownClientsStep_skip_comment (clients : Registry) (line : GoStr)
    (h : trimSpace line = [] ∨ startsWithChar '#' (trimSpace line) = true) :
    knownClientsStep clients line = clients := by
  rcases h with h | h <;> simp [knownClientsStep, h]

theorem mapLookup_mapInsert_self (m : Registry) (k v : GoStr) :
    mapLookup (mapInsert m k v) k = some v := by
  induction m with
  | nil => simp [mapInsert, mapLookup]
  | cons e rest ih =>
    obtain ⟨k', v'⟩ := e
    by_cases h : k' = k <;> simp [mapInsert, mapLookup, h, ih]

theorem mem_mapInsert (m : Registry) (k v : GoStr) (e : GoStr × GoStr)
    (he : e ∈ mapInsert m k v) : e ∈ m ∨ e = (k, v) := by
  induction m with
  | nil => simpa [mapInsert] using he
  | cons e' rest ih =>
    obtain ⟨k', v'⟩ := e'
    by_cases h : k' = k
    · simp only [mapInsert, if_pos h] at he
      rcases List.mem_cons.mp he with h' | h'
      · exact Or.inr h'
      · exact Or.inl (List.mem_cons_of_mem _ h')
    · simp only [mapInsert, if_neg h] at he
      rcases List.mem_cons.mp he with h' | h'
      · exact Or.inl (h' ▸ List.mem_cons_self _ _)
      · rcases ih h' with h'' | h''
        · exact Or.inl (List.mem_cons_of_mem _ h'')
        · exact Or.inr h''

theorem mem_regKeys_mapInsert (m : Registry) (k v : GoStr) (x : GoStr)
    (hx : x ∈ regKeys (mapInsert m k v)) : x ∈ regKeys m ∨ x = k := by
  simp only [regKeys, List.mem_map] at hx ⊢
  obtain ⟨e, he, rfl⟩ := hx
  rcases mem_mapInsert m k v e he with h | h
  · exact Or.inl ⟨e, h, rfl⟩
  · exact Or.inr (by rw [h])

theorem nodup_regKeys_mapInsert (m : Registry) (k v : GoStr)
    (h : (regKeys m).Nodup) : (regKeys (mapInsert m k v)).Nodup := by
  induction m with
  | nil => simp [mapInsert, regKeys]
  | cons e rest ih =>
    obtain ⟨k', v'⟩ := e
    simp only [regKeys, List.map_cons, List.nodup_cons] at h
    by_cases hk : k' = k
    · subst hk
      have hrw : mapInsert ((k', v') :: rest) k' v = (k', v) :: rest := by
        simp [mapInsert]
      rw [hrw]
      simpa [regKeys, List.nodup_cons] using h
    · have hrw : mapInsert ((k', v') :: rest) k v = (k', v') :: mapInsert rest k v := by
        simp [mapInsert, hk]
      rw [hrw]
      simp only [regKeys, List.map_cons, List.nodup_cons]
      refine ⟨fun hmem => ?_, ih h.2⟩
      rcases mem_regKeys_mapInsert rest k v k' hmem with h' | h'
      · exact h.1 h'
      · exact hk h'

theorem foldl_step_preserve (P : Registry → Prop)
    (hstep : ∀ m l, P m → P (knownClientsStep m l)) :
    ∀ (lines : List GoStr) (m : Registry), P m → P (List.foldl knownClientsStep m lines) := by
  intro lines
  induction lines with
  | nil => intro m h; exact h
  | cons l t ih => intro m h; exact ih _ (hstep m l h)

theorem knownClientsStep_entries (m : Registry) (l : GoStr) (e : GoStr × GoStr)
    (he : e ∈ knownClientsStep m l) : e ∈ m ∨ (e.1 ≠ [] ∧ e.2 ≠ []) := by
  simp only [knownClientsStep] at he
  split at he
  · exact Or.inl he
  · split at he
    · exact Or.inl he
    · split at he
      · exact Or.inl he
      · next p0 p1 heq hne =>
        rcases mem_mapInsert _ _ _ _ he with h | h
        · exact Or.inl h
        · right
          rw [h]
          simp only [Bool.or_eq_true, List.isEmpty_iff] at hne
          push_neg at hne
          exact ⟨hne.1, hne.2⟩

theorem knownClientsStep_nodup (m : Registry) (l : GoStr)
    (h : (regKeys m).Nodup) : (regKeys (knownClientsStep m l)).Nodup := by
  simp only [knownClientsStep]
  split
  · exact h
  · split
    · exact h
    · split
      · exact h
      · exact nodup_regKeys_mapInsert _ _ _ h

theorem renderFingerprint_cons (b c : Nat) (t : Bytes) :
    renderFingerprint (b :: c :: t) = byteToHexUpper b ++ ':' :: renderFingerprint (c :: t) := by
  simp [renderFingerprint]

theorem renderFingerprint_length (b : Nat) (t : Bytes) :
    (renderFingerprint (b :: t)).length = 3 * (b :: t).length - 1 := by
  induction t generalizing b with
  | nil => simp [renderFingerprint, byteToHexUpper]
  | cons c t2 ih =>
    have ihc := ih c
    rw [renderFingerprint_cons]
    simp only [List.length_append, List.length_cons, byteToHexUpper,
      List.length_nil] at ihc ⊢
    omega

theorem hexDigitUpper_ne_colon (n : Nat) (h : n < 16) : hexDigitUpper n ≠ ':' := by
  interval_cases n <;> decide

theorem isUpperHexDigit_hexDigitUpper (n : Nat) (h : n < 16) :
    isUpperHexDigit (hexDigitUpper n) = true := by
  interval_cases n <;> decide

theorem not_colon_mem_byteToHexUpper (b : Nat) (h : b < 256) :
    ':' ∉ byteToHexUpper b := by
  have h1 : b / 16 < 16 := by omega
  have h2 : b % 16 < 16 := by omega
  intro hmem
  simp only [byteToHexUpper, List.mem_cons, List.mem_singleton] at hmem
  rcases hmem with hmem | hmem | hmem
  · exact hexDigitUpper_ne_colon _ h1 hmem.symm
  · exact hexDigitUpper_ne_colon _ h2 hmem.symm
  · simp at hmem

theorem byteToHexUpper_group (b : Nat) (h : b < 256) :
    (((byteToHexUpper b).length == 2) && (byteToHexUpper b).all isUpperHexDigit) = true := by
  have h1 : b / 16 < 16 := by omega
  have h2 : b % 16 < 16 := by omega
  simp [byteToHexUpper, isUpperHexDigit_hexDigitUpper _ h1, isUpperHexDigit_hexDigitUpper _ h2]

theorem splitOnColon_cons (c : Char) (rest : GoStr) :
    splitOnColon (c :: rest)
      = match splitOnColon rest with
        | [] => [[]]
        | g :: gs => if c = ':' then [] :: g :: gs else (c :: g) :: gs := by
  simp [splitOnColon]

theorem splitOnColon_ne_nil (s : GoStr) : splitOnColon s ≠ [] := by
  induction s with
  | nil => simp [splitOnColon]
  | cons c t ih =>
    simp only [splitOnColon]
    cases h : splitOnColon t with
    | nil => exact absurd h ih
    | cons g gs => by_cases hc : c = ':' <;> simp [hc]

theorem splitOnColon_single (g : GoStr) (h : ':' ∉ g) : splitOnColon g = [g] := by
  induction g with
  | nil => rfl
  | cons c t ih =>
    have hc : c ≠ ':' := fun he => h (he ▸ List.mem_cons_self c t)
    have iht : splitOnColon t = [t] := ih (fun hm => h (List.mem_cons_of_mem _ hm))
    simp [splitOnColon, iht, hc]

theorem splitOnColon_append (g s : GoStr) (h : ':' ∉ g) :
    splitOnColon (g ++ ':' :: s) = g :: splitOnColon s := by
  induction g with
  | nil =>
    simp only [List.nil_append, splitOnColon]
    cases hs : splitOnColon s with
    | nil => exact absurd hs (splitOnColon_ne_nil s)
    | cons a b => simp
  | cons c t ih =>
    have hc : c ≠ ':' := fun he => h (he ▸ List.mem_cons_self c t)
    have iht := ih (fun hm => h (List.mem_cons_of_mem _ hm))
    rw [List.cons_append, splitOnColon_cons, iht]
    simp [hc]

theorem isCanonicalFingerprint_render (t : Bytes) (b : Nat)
    (h : ∀ x ∈ b :: t, x < 256) :
    isCanonicalFingerprint (renderFingerprint (b :: t)) = true := by
  induction t generalizing b with
  | nil =>
    have hb : b < 256 := h b (by simp)
    simp only [renderFingerprint, isCanonicalFingerprint,
      splitOnColon_single _ (not_colon_mem_byteToHexUpper b hb), List.all_cons, List.all_nil]
    simp [byteToHexUpper_group b hb]
  | cons c t2 ih =>
    have hb : b < 256 := h b (by simp)
    have hrest := ih c (fun x hx => h x (List.mem_cons_of_mem _ hx))
    rw [renderFingerprint_cons]
    simp only [isCanonicalFingerprint,
      splitOnColon_append _ _ (not_colon_mem_byteToHexUpper b hb), List.all_cons]
    simp only [isCanonicalFingerprint] at hrest
    simp [byteToHexUpper_group b hb, hrest]

theorem appendCertsFromPEM_ok (blocks : List PemBlock) :
    ∀ pool : List Certificate,
      (appendCertsFromPEM pool blocks).2 = true ↔ pemCertList blocks ≠ [] := by
  induction blocks with
  | nil => intro pool; simp [appendCertsFromPEM, pemCertList]
  | cons b rest ih =>
    intro pool
    cases b with
    | cert c => simp [appendCertsFromPEM, pemCertList]
    | other => simp [appendCertsFromPEM, pemCertList, ih pool]

theorem appendCertsFromPEM_pool (blocks : List PemBlock) :
    ∀ pool : List Certificate,
      (appendCertsFromPEM pool blocks).1 = List.foldl insertCert pool (pemCertList blocks) := by
  induction blocks with
  | nil => intro pool; simp [appendCertsFromPEM, pemCertList]
  | cons b rest ih =>
    intro pool
    cases b with
    | cert c => simp [appendCertsFromPEM, pemCertList, ih]
    | other => simp [appendCertsFromPEM, pemCertList, ih pool]

theorem foldl_insertCert_ne_nil (l : List Certificate) :
    ∀ pool : List Certificate, pool ≠ [] → List.foldl insertCert pool l ≠ [] := by
  induction l with
  | nil => intro pool hp; simpa using hp
  | cons c t ih =>
    intro pool hp
    simp only [List.foldl_cons]
    apply ih
    unfold insertCert
    split
    · exact hp
    · simp

theorem createClientTLSConfig_ok (kp : KeyPair) (blocks : List PemBlock)
    (cfg : ClientTLSConfig)
    (h : createClientTLSConfig (some kp) (some blocks) = .ok cfg) :
    cfg = { certificates := [kp], rootCAs := (appendCertsFromPEM [] blocks).1,
            minVersion := 771 }
    ∧ (appendCertsFromPEM [] blocks).2 = true := by
  cases hc : (appendCertsFromPEM [] blocks).2 with
  | false =>
    simp [createClientTLSConfig, loadCertPool, hc] at h
  | true =>
    simp only [createClientTLSConfig, loadCertPool, hc, if_true] at h
    exact ⟨(Except.ok.injEq _ _ ▸ h).symm, rfl⟩

/-- C1: verifyClientCertificate decides exactly by the spec's table: an
empty presented list fails with the absent-credential error; a parsed leaf
whose subject common name is not a registry key fails with the
not-authorized error, which is a distinct error from the mismatch error; a
known name whose stored fingerprint differs from the computed one fails
with the credential-mismatch error; a known name with the matching
fingerprint succeeds with no error. -/
theorem verifier_decision_table
    (parseCertificate : Bytes → Option Certificate) (sha256Sum : Bytes → Bytes)
    (raw : Bytes) (rest : List Bytes) (m : Registry) (cert : Certificate)
    (hp : parseCertificate raw = some cert) :
    verifyClientCertificate parseCertificate sha256Sum [] m
      = some VerifyError.noClientCertificate
    ∧ (∀ a b : GoStr, VerifyError.notAuthorized a ≠ VerifyError.fingerprintMismatch b)
    ∧ (mapLookup m cert.subjectCN = none →
        verifyClientCertificate parseCertificate sha256Sum (raw :: rest) m
          = some (VerifyError.notAuthorized cert.subjectCN))
    ∧ (∀ f, mapLookup m cert.subjectCN = some f →
        f ≠ renderFingerprint (sha256Sum cert.raw) →
        verifyClientCertificate parseCertificate sha256Sum (raw :: rest) m
          = some (VerifyError.fingerprintMismatch cert.subjectCN))
    ∧ (∀ f, mapLookup m cert.subjectCN = some f →
        f = renderFingerprint (sha256Sum cert.raw) →
        verifyClientCertificate parseCertificate sha256Sum (raw :: rest) m = none) := by
  refine ⟨rfl, ?_, ?_, ?_, ?_⟩
  · intro a b hab
    exact VerifyError.noConfusion hab
  · intro hl
    simp [verifyClientCertificate, hp, hl]
  · intro f hl hne
    simp [verifyClientCertificate, hp, hl, hne]
  · intro f hl he
    simp [verifyClientCertificate, hp, hl, he]

theorem verifier_decision_table_witness :
    verifyClientCertificate (fun b => some { subjectCN := ['x'], raw := b })
      (fun _ => [170]) [] [(['x'], ['A', 'A'])] = some VerifyError.noClientCertificate
    ∧ verifyClientCertificate (fun b => some { subjectCN := ['x'], raw := b })
      (fun _ => [170]) [[7]] [(['x'], ['A', 'A'])] = none :=
  ⟨(verifier_decision_table (fun b => some { subjectCN := ['x'], raw := b })
      (fun _ => [170]) [7] [] [(['x'], ['A', 'A'])]
      { subjectCN := ['x'], raw := [7] } rfl).1,
   (verifier_decision_table (fun b => some { subjectCN := ['x'], raw := b })
      (fun _ => [170]) [7] [] [(['x'], ['A', 'A'])]
      { subjectCN := ['x'], raw := [7] } rfl).2.2.2.2 ['A', 'A'] (by decide) (by decide)⟩

/-- C10: when the leaf bytes of a non-empty presented list do not parse,
verifyClientCertificate returns the parse error for every registry; it
never succeeds and the outcome does not depend on the registry. -/
theorem verifier_parse_failure
    (parseCertificate : Bytes → Option Certificate) (sha256Sum : Bytes → Bytes)
    (raw : Bytes) (rest : List Bytes) (m : Registry)
    (hp : parseCertificate raw = none) :
    verifyClientCertificate parseCertificate sha256Sum (raw :: rest) m
      = some VerifyError.parseFailure := by
  simp [verifyClientCertificate, hp]

theorem verifier_parse_failure_witness :
    verifyClientCertificate (fun _ => none) (fun _ => [0]) [[1], [2]]
      [(['x'], ['A', 'A'])] = some VerifyError.parseFailure :=
  verifier_parse_failure (fun _ => none) (fun _ => [0]) [1] [[2]]
    [(['x'], ['A', 'A'])] rfl

/-- C9: every entry of a registry produced by the known-clients parser has
a non-empty identity name and a non-empty fingerprint; the empty string is
never stored as a key or as a fingerprint. -/
theorem registry_entries_nonempty (lines : List GoStr) (e : GoStr × GoStr)
    (he : e ∈ parseKnownClients lines) : e.1 ≠ [] ∧ e.2 ≠ [] := by
  have h := foldl_step_preserve (fun m => ∀ x ∈ m, x.1 ≠ [] ∧ x.2 ≠ [])
    (fun m l hm x hx => by
      rcases knownClientsStep_entries m l x hx with h' | h'
      · exact hm x h'
      · exact h') lines [] (by simp)
  exact h e he

theorem registry_entries_nonempty_witness :
    (['a'], ['B']) ∈ parseKnownClients [['a', ' ', 'b']]
    ∧ (['a'], ['B']).1 ≠ ([] : GoStr) ∧ (['a'], ['B']).2 ≠ ([] : GoStr) :=
  ⟨by decide, registry_entries_nonempty [['a', ' ', 'b']] (['a'], ['B']) (by decide)⟩

/-- C3 counterexample: the line "a b c" splits into three
whitespace-separated fields, so under the claim it would be skipped and the
registry left empty, yet the parser stores the entry (a, B C); and the line
"a&#9;b" (tab-separated) splits into exactly two whitespace-separated
fields, so under the claim it would yield one entry, yet the parser skips
it because it holds no space character. -/
theorem registry_two_field_shape_counterexample :
    parseKnownClients [['a', ' ', 'b', ' ', 'c']] = [(['a'], ['B', ' ', 'C'])]
    ∧ parseKnownClients [['a', '\t', 'b']] = [] := by
  exact ⟨by decide, by decide⟩

/-- C3 (amended): a non-empty, non-comment line is split at its first
space character: when it has a space and the trimmed name and the trimmed,
uppercased remainder are non-empty, it yields one entry whose fingerprint
is the whole remainder after the first space (which may itself contain
further spaces); a line with no space — even one whose two fields are
separated by other whitespace — is skipped with a warning and leaves the
registry unchanged; a skipped line never fails the load, and a source with
one well-formed and one malformed line yields a registry with exactly one
entry and no error. -/
theorem registry_line_parsing_amended
    (clients : Registry) (name fp line : GoStr)
    (hn : name ≠ []) (hfp : fp ≠ [])
    (hnw : ∀ c ∈ name, isSpaceGo c = false)
    (hfw : ∀ c ∈ fp, isSpaceGo c = false)
    (hh : startsWithChar '#' name = false)
    (hline : splitAtFirstSpace (trimSpace line) = none) :
    knownClientsStep clients (name ++ ' ' :: fp) = mapInsert clients name (toUpperStr fp)
    ∧ knownClientsStep clients line = clients
    ∧ loadKnownClients (.ok [("my_secure_client aa:bb").toList, ("malformed").toList])
        = .ok [(("my_secure_client").toList, ("AA:BB").toList)] :=
  ⟨knownClientsStep_accept clients name fp hn hfp hnw hfw hh,
   knownClientsStep_skip_nospace clients line hline, by rfl⟩

theorem registry_line_parsing_amended_witness :
    knownClientsStep [] (['n'] ++ ' ' :: ['f']) = mapInsert [] ['n'] (toUpperStr ['f'])
    ∧ knownClientsStep [] ['z'] = []
    ∧ loadKnownClients (.ok [("my_secure_client aa:bb").toList, ("malformed").toList])
        = .ok [(("my_secure_client").toList, ("AA:BB").toList)] :=
  registry_line_parsing_amended [] ['n'] ['f'] ['z'] (by decide) (by decide)
    (by decide) (by decide) (by decide) (by decide)

/-- C4: when two well-formed lines share one identity name, the loaded
registry maps that name to the second line's fingerprint (last-write-wins),
and identity names are unique keys in every registry the parser
produces. -/
theorem registry_last_write_wins
    (name f1 f2 : GoStr)
    (hn : name ≠ []) (h1 : f1 ≠ []) (h2 : f2 ≠ [])
    (hnw : ∀ c ∈ name, isSpaceGo c = false)
    (h1w : ∀ c ∈ f1, isSpaceGo c = false)
    (h2w : ∀ c ∈ f2, isSpaceGo c = false)
    (hh : startsWithChar '#' name = false) :
    mapLookup (parseKnownClients [name ++ ' ' :: f1, name ++ ' ' :: f2]) name
      = some (toUpperStr f2)
    ∧ ∀ lines, (regKeys (parseKnownClients lines)).Nodup := by
  constructor
  · show mapLookup (knownClientsStep (knownClientsStep [] (name ++ ' ' :: f1))
      (name ++ ' ' :: f2)) name = some (toUpperStr f2)
    rw [knownClientsStep_accept [] name f1 hn h1 hnw h1w hh,
      knownClientsStep_accept _ name f2 hn h2 hnw h2w hh]
    exact mapLookup_mapInsert_self _ _ _
  · intro lines
    exact foldl_step_preserve (fun m => (regKeys m).Nodup)
      (fun m l hm => knownClientsStep_nodup m l hm) lines [] (by simp [regKeys])

theorem registry_last_write_wins_witness :
    mapLookup (parseKnownClients [['n', ' ', 'a'], ['n', ' ', 'b']]) ['n']
      = some (toUpperStr ['b']) :=
  (registry_last_write_wins ['n'] ['a'] ['b'] (by decide) (by decide) (by decide)
    (by decide) (by decide) (by decide) (by decide)).1

/-- C5: a well-formed registry line stores the uppercase form of its
fingerprint field whatever case it was written in, and a certificate whose
computed (uppercase) fingerprint equals that uppercase form verifies
successfully against the loaded registry. -/
theorem registry_fingerprint_case_insensitive
    (name fp : GoStr) (parseCertificate : Bytes → Option Certificate)
    (sha256Sum : Bytes → Bytes) (raw : Bytes) (cert : Certificate)
    (hn : name ≠ []) (hfp : fp ≠ [])
    (hnw : ∀ c ∈ name, isSpaceGo c = false)
    (hfw : ∀ c ∈ fp, isSpaceGo c = false)
    (hh : startsWithChar '#' name = false)
    (hp : parseCertificate raw = some cert)
    (hcn : cert.subjectCN = name)
    (hren : renderFingerprint (sha256Sum cert.raw) = toUpperStr fp) :
    parseKnownClients [name ++ ' ' :: fp] = [(name, toUpperStr fp)]
    ∧ verifyClientCertificate parseCertificate sha256Sum [raw]
        (parseKnownClients [name ++ ' ' :: fp]) = none := by
  have hreg : parseKnownClients [name ++ ' ' :: fp] = [(name, toUpperStr fp)] := by
    show knownClientsStep [] (name ++ ' ' :: fp) = _
    rw [knownClientsStep_accept [] name fp hn hfp hnw hfw hh]
    rfl
  refine ⟨hreg, ?_⟩
  rw [hreg]
  simp [verifyClientCertificate, hp, hcn, mapLookup, hren]

theorem registry_fingerprint_case_insensitive_witness :
    parseKnownClients [['x'] ++ ' ' :: ['a', 'a']] = [(['x'], toUpperStr ['a', 'a'])]
    ∧ verifyClientCertificate (fun b => some { subjectCN := ['x'], raw := b })
        (fun _ => [170]) [[7]] (parseKnownClients [['x'] ++ ' ' :: ['a', 'a']]) = none :=
  registry_fingerprint_case_insensitive ['x'] ['a', 'a']
    (fun b => some { subjectCN := ['x'], raw := b }) (fun _ => [170]) [7]
    { subjectCN := ['x'], raw := [7] } (by decide) (by decide) (by decide)
    (by decide) (by decide) rfl rfl (by decide)

/-- C6: the fingerprint computation is deterministic — the same certificate
bytes always yield the same rendered string — and the rendering of any
non-empty digest of bytes matches the canonical pattern of uppercase hex
pairs joined by single colons, with no leading or trailing separator. -/
theorem fingerprint_deterministic_and_canonical
    (sha256Sum : Bytes → Bytes) (c : Bytes)
    (hne : sha256Sum c ≠ []) (hbyte : ∀ b ∈ sha256Sum c, b < 256) :
    renderFingerprint (sha256Sum c) = renderFingerprint (sha256Sum c)
    ∧ isCanonicalFingerprint (renderFingerprint (sha256Sum c)) = true := by
  refine ⟨rfl, ?_⟩
  obtain ⟨b, t, he⟩ : ∃ b t, sha256Sum c = b :: t := by
    cases hs : sha256Sum c with
    | nil => exact absurd hs hne
    | cons b t => exact ⟨b, t, rfl⟩
  rw [he]
  exact isCanonicalFingerprint_render t b (he ▸ hbyte)

theorem fingerprint_deterministic_and_canonical_witness :
    renderFingerprint (((fun _ => [0, 255]) : Bytes → Bytes) [])
      = renderFingerprint (((fun _ => [0, 255]) : Bytes → Bytes) [])
    ∧ isCanonicalFingerprint
        (renderFingerprint (((fun _ => [0, 255]) : Bytes → Bytes) [])) = true :=
  fingerprint_deterministic_and_canonical ((fun _ => [0, 255]) : Bytes → Bytes) []
    (by decide) (by decide)

/-- C7: the registry load fails exactly when the source read fails; an
empty or all-comment readable source yields the empty registry with no
error; and on the empty registry every verification fails. -/
theorem registry_load_failure_and_empty
    (src : Except GoStr (List GoStr)) (lines : List GoStr)
    (hcomment : ∀ l ∈ lines,
      trimSpace l = [] ∨ startsWithChar '#' (trimSpace l) = true) :
    (loadKnownClients src).isOk = src.isOk
    ∧ loadKnownClients (.ok lines) = .ok []
    ∧ (∀ parseCertificate sha256Sum rawCerts,
        verifyClientCertificate parseCertificate sha256Sum rawCerts [] ≠ none) := by
  have hparse : ∀ (ls : List GoStr),
      (∀ l ∈ ls, trimSpace l = [] ∨ startsWithChar '#' (trimSpace l) = true) →
      ∀ m, List.foldl knownClientsStep m ls = m := by
    intro ls
    induction ls with
    | nil => intro _ m; rfl
    | cons l t ih =>
      intro h m
      rw [List.foldl_cons, knownClientsStep_skip_comment m l (h l (by simp))]
      exact ih (fun x hx => h x (by simp [hx])) m
  refine ⟨?_, ?_, ?_⟩
  · cases src <;> rfl
  · simp only [loadKnownClients, parseKnownClients]
    rw [hparse lines hcomment []]
  · intro pc sh rawCerts
    cases rawCerts with
    | nil => simp [verifyClientCertificate]
    | cons raw rest =>
      cases hp : pc raw with
      | none => simp [verifyClientCertificate, hp]
      | some cert => simp [verifyClientCertificate, hp, mapLookup]

theorem registry_load_failure_and_empty_witness :
    loadKnownClients (.ok [['#', 'c'], []]) = .ok [] :=
  (registry_load_failure_and_empty (.ok []) [['#', 'c'], []] (by decide)).2.1

/-- C2 counterexample: a server-certificate file holding two certificate
PEM blocks is accepted by createClientTLSConfig, and the resulting RootCAs
pool holds two anchors, not exactly one. -/
theorem trust_anchor_singleton_counterexample :
    (createClientTLSConfig (some { certRaw := [] })
        (some [PemBlock.cert { subjectCN := ['s'], raw := [1] },
               PemBlock.cert { subjectCN := ['t'], raw := [2] }])).map
      (fun cfg => cfg.rootCAs)
      = Except.ok [{ subjectCN := ['s'], raw := [1] },
                   { subjectCN := ['t'], raw := [2] }]
    ∧ (createClientTLSConfig (some { certRaw := [] })
        (some [PemBlock.cert { subjectCN := ['s'], raw := [1] },
               PemBlock.cert { subjectCN := ['t'], raw := [2] }])).map
      (fun cfg => cfg.rootCAs.length) = Except.ok 2 :=
  ⟨rfl, rfl⟩

/-- C2 (amended): for every accepted server-certificate file, the RootCAs
pool holds exactly the certificates decoded from the file's PEM blocks —
at least one, with exact duplicates collapsed — and nothing else; in
particular, when the file holds exactly one certificate block the pool is
that single certificate alone. -/
theorem trust_anchor_pool_amended (kp : KeyPair) (blocks : List PemBlock)
    (cfg : ClientTLSConfig)
    (h : createClientTLSConfig (some kp) (some blocks) = .ok cfg) :
    cfg.rootCAs = List.foldl insertCert [] (pemCertList blocks)
    ∧ cfg.rootCAs ≠ []
    ∧ (∀ c : Certificate, pemCertList blocks = [c] → cfg.rootCAs = [c]) := by
  obtain ⟨hcfg, hok⟩ := createClientTLSConfig_ok kp blocks cfg h
  have hpool : cfg.rootCAs = List.foldl insertCert [] (pemCertList blocks) := by
    rw [hcfg]
    exact appendCertsFromPEM_pool blocks []
  have hne : pemCertList blocks ≠ [] := (appendCertsFromPEM_ok blocks []).mp hok
  refine ⟨hpool, ?_, ?_⟩
  · rw [hpool]
    cases hl : pemCertList blocks with
    | nil => exact absurd hl hne
    | cons c t =>
      simp only [List.foldl_cons]
      have h1 : insertCert [] c = [c] := by simp [insertCert]
      rw [h1]
      exact foldl_insertCert_ne_nil t [c] (by simp)
  · intro c hl
    rw [hpool, hl]
    simp [insertCert]

theorem trust_anchor_pool_amended_witness :
    ({ certificates := [{ certRaw := [] }],
       rootCAs := [{ subjectCN := ['s'], raw := [1] }],
       minVersion := 771 } : ClientTLSConfig).rootCAs
      = List.foldl insertCert []
          (pemCertList [PemBlock.cert { subjectCN := ['s'], raw := [1] }]) :=
  (trust_anchor_pool_amended { certRaw := [] }
    [PemBlock.cert { subjectCN := ['s'], raw := [1] }]
    { certificates := [{ certRaw := [] }],
      rootCAs := [{ subjectCN := ['s'], raw := [1] }], minVersion := 771 } rfl).1

/-- C8 counterexample: a SHA-256 digest has 32 bytes, and the rendered
colon-separated fingerprint of a 32-byte digest is 95 bytes long, not the
36 bytes the claim states. -/
theorem fingerprint_rendered_length_counterexample :
    (renderFingerprint (List.replicate 32 0)).length = 95
    ∧ ¬ (renderFingerprint (List.replicate 32 0)).length = 36 :=
  ⟨by decide, by decide⟩

/-- C8 (amended): for every certificate, the rendered fingerprint of its
32-byte SHA-256 digest is 95 bytes long, and the end-to-end scenario holds:
a certificate whose subject name is registered with exactly that computed
fingerprint is accepted by the verifier. -/
theorem fingerprint_length_and_scenario_amended
    (parseCertificate : Bytes → Option Certificate) (sha256Sum : Bytes → Bytes)
    (raw : Bytes) (cert : Certificate) (m : Registry)
    (hlen : (sha256Sum cert.raw).length = 32)
    (hp : parseCertificate raw = some cert)
    (hm : mapLookup m cert.subjectCN
      = some (renderFingerprint (sha256Sum cert.raw))) :
    (renderFingerprint (sha256Sum cert.raw)).length = 95
    ∧ verifyClientCertificate parseCertificate sha256Sum [raw] m = none := by
  constructor
  · obtain ⟨b, t, he⟩ : ∃ b t, sha256Sum cert.raw = b :: t := by
      cases hs : sha256Sum cert.raw with
      | nil => rw [hs] at hlen; simp at hlen
      | cons b t => exact ⟨b, t, rfl⟩
    rw [he, renderFingerprint_length]
    rw [he] at hlen
    rw [hlen]
  · simp [verifyClientCertificate, hp, hm]

theorem fingerprint_length_and_scenario_amended_witness :
    (renderFingerprint (((fun _ => List.replicate 32 0) : Bytes → Bytes)
        ({ subjectCN := [], raw := [] } : Certificate).raw)).length = 95
    ∧ verifyClientCertificate (fun b => some { subjectCN := [], raw := b })
        ((fun _ => List.replicate 32 0) : Bytes → Bytes) [[]]
        [([], renderFingerprint (List.replicate 32 0))] = none :=
  fingerprint_length_and_scenario_amended
    (fun b => some { subjectCN := [], raw := b })
    ((fun _ => List.replicate 32 0) : Bytes → Bytes) []
    { subjectCN := [], raw := [] }
    [([], renderFingerprint (List.replicate 32 0))] rfl rfl rfl

end TLSPlayground
